import Mathlib

set_option maxRecDepth 100000

/-!
Verification of the encryption-at-rest layer of the my-one-note repository.

Byte strings are modelled as lists of natural numbers below 256.  The
external cryptography, base64, hashlib and json libraries are modelled as
idealized executable primitives: hash-like functions are injective
(collision-free idealization), the symmetric cipher takes its random
nonce as an explicit argument, and an authenticated token carries an
integrity copy of its body so that any single-position modification is
detected.  The repository functions themselves (encryption.py, db.py,
reencrypt_db.py) are translated statement by statement on top of these
primitives.
-/

/-- Predicate stating that every element of a list is a byte value. -/
def ValidBytes (bs : List Nat) : Prop := ∀ b ∈ bs, b < 256

instance (bs : List Nat) : Decidable (ValidBytes bs) := by
  unfold ValidBytes; infer_instance

/-! ### Hex armoring

Models the text armoring of binary data used by the libraries
(bytes.hex on the persistence side and, in idealized form, the base64url
alphabet of the key/token encodings): every byte becomes two lowercase
hex digit characters, and the decoder rejects any non-digit. -/

/-- Character code of the lower hex digit for a value below 16. -/
def hexDigitChar (d : Nat) : Nat := if d < 10 then 48 + d else 87 + d

/-- Whether a character code is a lowercase hex digit. -/
def isHexDigit (c : Nat) : Bool := (48 ≤ c && c ≤ 57) || (97 ≤ c && c ≤ 102)

/-- Value of a hex digit character code. -/
def hexVal (c : Nat) : Nat := if c ≤ 57 then c - 48 else c - 87

/-- Armor a byte list as hex digit character codes, two per byte. -/
def armor : List Nat → List Nat
  | [] => []
  | b :: bs => hexDigitChar (b / 16) :: hexDigitChar (b % 16) :: armor bs

/-- Decode hex digit character codes back to bytes; fails on a stray
character or an odd length. -/
def unarmor : List Nat → Option (List Nat)
  | [] => some []
  | c1 :: c2 :: rest =>
      if isHexDigit c1 && isHexDigit c2 then
        (unarmor rest).map (fun bs => (16 * hexVal c1 + hexVal c2) :: bs)
      else none
  | [_] => none

/-! ### Length-prefixed concatenation

A self-delimiting pairing of byte lists: the length of the first list is
written in unary (bytes 1 terminated by 0), followed by the first list
and then the second.  This is the framing used inside the idealized
library primitives below. -/

/-- Unary encoding of a natural number as bytes. -/
def natUnary : Nat → List Nat
  | 0 => [0]
  | n + 1 => 1 :: natUnary n

/-- Read a unary number back off the front of a byte list. -/
def splitUnary : List Nat → Option (Nat × List Nat)
  | 0 :: rest => some (0, rest)
  | 1 :: rest => (splitUnary rest).map (fun p => (p.1 + 1, p.2))
  | _ => none

/-- Self-delimiting pairing of two byte lists. -/
def bytesJoin (a b : List Nat) : List Nat := natUnary a.length ++ a ++ b

/-- Inverse of bytesJoin. -/
def bytesSplit (bs : List Nat) : Option (List Nat × List Nat) :=
  match splitUnary bs with
  | none => none
  | some (n, r) => if n ≤ r.length then some (r.take n, r.drop n) else none

/-! ### Idealized library primitives

The cryptography and hashlib libraries are external to the repository.
They are modelled as executable idealized primitives: digest functions
are injective byte encodings of their inputs (the collision-free
idealization of a cryptographic hash), and the authenticated token
carries an integrity copy of its body, so that its verification rejects
exactly the byte strings that are not well-formed tokens. -/

/-- Idealized model of hashlib.sha256(data).digest(): an injective
digest of the input, tagged with a leading marker byte. -/
def sha256 (data : List Nat) : List Nat := 72 :: data

/-- Four base-256 little-endian digits of a natural number (the
iteration and length parameters of the key derivation fit well within
32 bits). -/
def natBytes (n : Nat) : List Nat :=
  [n % 256, n / 256 % 256, n / 65536 % 256, n / 16777216 % 256]

/-- Idealized model of PBKDF2HMAC(SHA256, length, salt, iterations)
applied to a password: an injective, deterministic encoding of all four
arguments, tagged with a leading marker byte. -/
def pbkdf2_hmac_sha256 (password salt : List Nat) (iterations length : Nat) : List Nat :=
  75 :: bytesJoin (natBytes iterations) (bytesJoin (natBytes length) (bytesJoin password salt))

/-- Body of an authenticated token: the payload followed by its
idealized integrity digest, length-prefixed. -/
def mkToken (body : List Nat) : List Nat := bytesJoin body (sha256 body)

/-- Parse and verify an authenticated token body. -/
def parseToken (t : List Nat) : Option (List Nat) :=
  match bytesSplit t with
  | none => none
  | some (b, rest) => if rest = sha256 b then some b else none

/-! ### Idealized Fernet cipher

Models cryptography.fernet.Fernet.  A real Fernet token is the base64url
text of a versioned, HMAC-authenticated record over a random IV and the
ciphertext; here the token is the armored authenticated body over the
key, the explicit random IV and the payload, preceded by a fixed version
byte.  Verification succeeds exactly on well-formed tokens produced
under the same key. -/

/-- Idealized model of Fernet.encrypt under a given key, with the random
IV passed explicitly. -/
def fernetEncrypt (key iv data : List Nat) : List Nat :=
  103 :: armor (mkToken (bytesJoin key (bytesJoin iv data)))

/-- Verification half of the idealized Fernet.decrypt: unarmor the part
after the version byte, check the integrity copy and the key binding,
and extract the payload. -/
def fernetVerify (key rest : List Nat) : Option (List Nat) :=
  (unarmor rest).bind fun bin =>
    (parseToken bin).bind fun body =>
      (bytesSplit body).bind fun p =>
        if p.1 = key then (bytesSplit p.2).map Prod.snd else none

/-- Idealized model of Fernet.decrypt: parse the armored token, verify
its integrity and its key binding, and return the payload. -/
def fernetDecrypt (key token : List Nat) : Option (List Nat) :=
  match token with
  | 103 :: rest => fernetVerify key rest
  | _ => none

/-- Three-byte little-endian group for one character. -/
def charBytes (c : Char) : List Nat :=
  [c.toNat % 256, c.toNat / 256 % 256, c.toNat / 65536]

/-- Encode a character list, three bytes per character. -/
def encodeChars : List Char → List Nat
  | [] => []
  | c :: cs => charBytes c ++ encodeChars cs

/-- Idealized model of str.encode on a Python string. -/
def strBytes (s : String) : List Nat := encodeChars s.data

/-- Decode three-byte groups back to characters. -/
def decodeChars : List Nat → Option (List Char)
  | [] => some []
  | b0 :: b1 :: b2 :: rest =>
      if _h : Nat.isValidChar (b0 + 256 * b1 + 65536 * b2) then
        (decodeChars rest).map (fun cs => Char.ofNat (b0 + 256 * b1 + 65536 * b2) :: cs)
      else none
  | _ => none

/-- Idealized model of bytes.decode on Python bytes. -/
def strDecode? (bs : List Nat) : Option String := (decodeChars bs).map String.mk

/-! ### Idealized json library

Models json.loads and json.dumps.  A document parses exactly when its
first character is one of the characters that can begin a JSON document;
dumping returns the document.  The development relies only on parsing
being deterministic and able to fail. -/

/-- A parsed JSON document, kept as its text. -/
abbrev Json := String

/-- Character codes that can begin a JSON document. -/
def jsonStartCodes : List Nat :=
  [123, 91, 34, 116, 102, 110, 45, 48, 49, 50, 51, 52, 53, 54, 55, 56, 57]

/-- Idealized model of json.loads. -/
def jsonParse? (s : String) : Option Json :=
  match s.data with
  | [] => none
  | c :: _ => if jsonStartCodes.contains c.toNat then some s else none

/-- Idealized model of json.dumps. -/
def jsonDumps (j : Json) : String := j

/-! ### Idealized base64url

Aliases of the armoring, under the names of the base64 library used by
the source: an injective ASCII armoring of bytes with a decoder that
rejects strings outside the encoding, standing in for the base64url
alphabet. -/

/-- Idealized model of base64.urlsafe_b64encode. -/
def urlsafe_b64encode (bs : List Nat) : List Nat := armor bs

/-- Idealized model of base64.urlsafe_b64decode; fails (like the
library raising binascii.Error) on input outside the encoding. -/
def urlsafe_b64decode? (bs : List Nat) : Option (List Nat) := unarmor bs

namespace Encryption

/-- Process environment of src/utils/encryption.py: whether the
cryptography and streamlit imports succeeded, and the raw
ENCRYPTION_MASTER_KEY strings visible through streamlit secrets and the
environment (none when absent). -/
structure Config where
  hasCryptography : Bool
  hasStreamlit : Bool
  streamlitSecret : Option String
  envMasterKey : Option String

/-- The master key string seen by get_master_key after the falsy checks
of the source: the streamlit secret when present and non-empty,
otherwise the environment variable. -/
def configuredSecret (cfg : Config) : Option String :=
  match (if cfg.hasStreamlit then cfg.streamlitSecret else none) with
  | some s => if s = "" then cfg.envMasterKey else some s
  | none => cfg.envMasterKey

/-- Translation of get_master_key: returns none when no key string is
configured or it is empty; otherwise base64url-decodes it, falling back
to the raw encoded string when decoding fails (the source catches the
decoding exception and encodes the string as-is). -/
def get_master_key (cfg : Config) : Option (List Nat) :=
  match configuredSecret cfg with
  | some s =>
      if s = "" then none
      else
        match urlsafe_b64decode? (strBytes s) with
        | some b => some b
        | none => some (strBytes s)
  | none => none

/-- Resolution of the optional master_key argument of derive_user_key:
the source looks the key up through get_master_key when the caller
passes None. -/
def resolvedMasterKey (cfg : Config) (master_key : Option (List Nat)) : Option (List Nat) :=
  match master_key with
  | none => get_master_key cfg
  | some k => some k

/-- Translation of derive_user_key: with a master key, PBKDF2-HMAC-SHA256
with the user id as salt, 100000 iterations, 32 bytes, base64url-encoded;
without one, the SHA-256 fallback key over "default_key_" and the user
id. -/
def derive_user_key (cfg : Config) (user_id : String)
    (master_key : Option (List Nat)) : List Nat :=
  match resolvedMasterKey cfg master_key with
  | none => urlsafe_b64encode (sha256 (strBytes ("default_key_" ++ user_id)))
  | some k => urlsafe_b64encode (pbkdf2_hmac_sha256 k (strBytes user_id) 100000 32)

/-- A constructed Fernet cipher object holding its validated key. -/
structure Fernet where
  key : List Nat

/-- The Fernet constructor: accepts exactly the keys in the base64url
encoding (the library also checks for 32 decoded bytes; every key the
key derivation produces passes that check, so the model folds it into
decodability).  A rejected key raises, which get_user_fernet catches. -/
def fernetNew? (key : List Nat) : Option Fernet :=
  if (urlsafe_b64decode? key).isSome then some ⟨key⟩ else none

/-- Translation of get_user_fernet: none without the cryptography
library, otherwise a Fernet over the derived user key, with a
constructor exception caught as none. -/
def get_user_fernet (cfg : Config) (user_id : String) : Option Fernet :=
  if cfg.hasCryptography then fernetNew? (derive_user_key cfg user_id none) else none

/-- Translation of encrypt_data, with the random IV drawn inside
Fernet.encrypt made an explicit argument: returns the original data
when no cipher is available (the fail-open path of the source). -/
def encrypt_data (cfg : Config) (data : List Nat) (user_id : String)
    (iv : List Nat) : List Nat :=
  match get_user_fernet cfg user_id with
  | none => data
  | some f => fernetEncrypt f.key iv data

/-- Translation of decrypt_data: returns the input unchanged when no
cipher is available, and also when Fernet verification fails, because
the source catches every exception and returns encrypted_data. -/
def decrypt_data (cfg : Config) (encrypted_data : List Nat) (user_id : String) : List Nat :=
  match get_user_fernet cfg user_id with
  | none => encrypted_data
  | some f =>
      match fernetDecrypt f.key encrypted_data with
      | some p => p
      | none => encrypted_data

/-- Translation of is_encryption_enabled. -/
def is_encryption_enabled (cfg : Config) : Bool :=
  if cfg.hasCryptography = false then false
  else (get_master_key cfg).isSome

end Encryption

namespace Db

/-- Hex string of a byte list, as bytes.hex of the source produces
(lowercase digits). -/
def hexStr (bs : List Nat) : String := String.mk ((armor bs).map Char.ofNat)

/-- Inverse of hexStr, as bytes.fromhex of the source; fails on a
malformed hex string.  The source also accepts uppercase digits, which
never arise from hexStr and are not modelled. -/
def hexToBytes? (s : String) : Option (List Nat) := unarmor (s.data.map Char.toNat)

/-- Translation of the content handling of save_page_content_db: the
session and row lookup of the source are external collaborators, so the
model maps the content to the stored text of the page row.  When
encryption is enabled the stored text is the marker "ENC:" followed by
the hex of the encrypted UTF-8 bytes under the default user id;
otherwise it is the raw content. -/
def save_page_content_db (cfg : Encryption.Config) (iv : List Nat) (content : String) :
    String :=
  if Encryption.is_encryption_enabled cfg then
    "ENC:" ++ hexStr (Encryption.encrypt_data cfg (strBytes content) "default_user" iv)
  else content

/-- Translation of the content handling of load_page_content_db: a
stored value that is non-empty and starts with the marker is hex-decoded
and decrypted when encryption is enabled, with any exception in that
block (malformed hex, or text decoding of the bytes decrypt_data
returned) caught as the sentinel; with encryption disabled a marked
value produces the fixed notice; anything unmarked is returned
verbatim. -/
def load_page_content_db (cfg : Encryption.Config) (stored : String) : String :=
  if stored ≠ "" ∧ stored.data.take 4 = ("ENC:" : String).data then
    if Encryption.is_encryption_enabled cfg then
      match hexToBytes? (String.mk (stored.data.drop 4)) with
      | none => "Error decrypting content"
      | some eb =>
          match strDecode? (Encryption.decrypt_data cfg eb "default_user") with
          | some s => s
          | none => "Error decrypting content"
    else "Content is encrypted but encryption is disabled."
  else stored

end Db

namespace Reencrypt

/-- The hardcoded old master key string of src/reencrypt_db.py. -/
def OLD_KEY_STR : String := "0Im_YI3xVEbQqd6W2q7vqjulidabo3EW1nNHX_Y_N1E="

/-- The hardcoded new master key string of src/reencrypt_db.py. -/
def NEW_KEY_STR : String := "B1H0xgRBN7ERpLlOiqnJDf_h3FzuJuFQcaqdv4Y7zds="

/-- Translation of the derive_user_key of the script: base64url-decode
the master key string, falling back to its raw encoding when the decode
raises, then the same PBKDF2 derivation as the application. -/
def derive_user_key (user_id : String) (master_key_str : String) : List Nat :=
  match urlsafe_b64decode? (strBytes master_key_str) with
  | some master_key =>
      urlsafe_b64encode (pbkdf2_hmac_sha256 master_key (strBytes user_id) 100000 32)
  | none =>
      urlsafe_b64encode (pbkdf2_hmac_sha256 (strBytes master_key_str)
        (strBytes user_id) 100000 32)

/-- The user key the script derives from the old master key string. -/
def oldUserKey : List Nat := derive_user_key "default_user" OLD_KEY_STR

/-- The user key the script derives from the new master key string. -/
def newUserKey : List Nat := derive_user_key "default_user" NEW_KEY_STR

/-- Read phase of reencrypt: decrypt the file under the old key and
parse the JSON; when any step of that raises, fall back to reading the
raw file as plain-text JSON. -/
def readPhase (data : List Nat) : Option Json :=
  match (fernetDecrypt oldUserKey data).bind
      (fun dec => (strDecode? dec).bind jsonParse?) with
  | some j => some j
  | none => (strDecode? data).bind jsonParse?

/-- Translation of reencrypt, as a transformation of the notebooks file
contents (none models a missing file, which the script leaves alone, as
it does a file whose read phase fails entirely).  A successful read is
re-encrypted under the new key with a fresh IV and written back. -/
def reencrypt (iv : List Nat) (file : Option (List Nat)) : Option (List Nat) :=
  match file with
  | none => none
  | some data =>
      match readPhase data with
      | none => some data
      | some j => some (fernetEncrypt newUserKey iv (strBytes (jsonDumps j)))

end Reencrypt

/-! ### Test fixtures

Concrete process environments used by the closed witness and
counterexample theorems. -/

/-- Environment with the cryptography library available and a master
key configured through the environment variable. -/
def cfgTest : Encryption.Config := ⟨true, false, none, some "k"⟩

/-- Environment with the cryptography library available but no master
key configured anywhere. -/
def cfgNoKey : Encryption.Config := ⟨true, false, none, none⟩

/-- Environment without the cryptography library and without a master
key. -/
def cfgNoCrypto : Encryption.Config := ⟨false, false, none, none⟩

/-- Modelled from the spec: the reference key derivation of section 4.1,
base64url of PBKDF2-HMAC-SHA256 with the master secret as password, the
UTF-8 bytes of the identifier as salt, 100000 iterations and 32 output
bytes.  Stated from the specification text, to be compared with the
derive_user_key translated from the source. -/
def derive_key_spec (identifier : String) (master_secret : List Nat) : List Nat :=
  urlsafe_b64encode (pbkdf2_hmac_sha256 master_secret (strBytes identifier) 100000 32)

theorem validBytes_append {a b : List Nat} (ha : ValidBytes a) (hb : ValidBytes b) :
    ValidBytes (a ++ b) := by
  intro x hx
  rcases List.mem_append.mp hx with h | h
  · exact ha x h
  · exact hb x h

theorem validBytes_cons {b : Nat} {bs : List Nat} (hb : b < 256) (hbs : ValidBytes bs) :
    ValidBytes (b :: bs) := by
  intro x hx
  rcases List.mem_cons.mp hx with h | h
  · omega
  · exact hbs x h

theorem hexVal_hexDigitChar {d : Nat} (h : d < 16) : hexVal (hexDigitChar d) = d := by
  unfold hexVal hexDigitChar
  split <;> split <;> omega

theorem isHexDigit_hexDigitChar {d : Nat} (h : d < 16) : isHexDigit (hexDigitChar d) = true := by
  unfold isHexDigit hexDigitChar
  split <;> simp <;> omega

theorem hexDigitChar_lt (d : Nat) : hexDigitChar d < 256 → hexDigitChar d ≤ 102 → True := by
  intro _ _; trivial

theorem hexDigitChar_le {d : Nat} (h : d < 16) : hexDigitChar d ≤ 102 := by
  unfold hexDigitChar; split <;> omega

theorem hexDigitChar_inj {a b : Nat} (ha : a < 16) (hb : b < 16)
    (h : hexDigitChar a = hexDigitChar b) : a = b := by
  unfold hexDigitChar at h
  split at h <;> split at h <;> omega

theorem hexVal_lt {c : Nat} (h : isHexDigit c = true) : hexVal c < 16 := by
  unfold isHexDigit at h
  unfold hexVal
  simp only [Bool.or_eq_true, Bool.and_eq_true, decide_eq_true_eq] at h
  rcases h with ⟨h1, h2⟩ | ⟨h1, h2⟩ <;> split <;> omega

theorem hexDigitChar_hexVal {c : Nat} (h : isHexDigit c = true) :
    hexDigitChar (hexVal c) = c := by
  unfold isHexDigit at h
  unfold hexDigitChar hexVal
  simp only [Bool.or_eq_true, Bool.and_eq_true, decide_eq_true_eq] at h
  rcases h with ⟨h1, h2⟩ | ⟨h1, h2⟩ <;> split <;> split <;> omega

theorem unarmor_armor {bs : List Nat} (h : ValidBytes bs) : unarmor (armor bs) = some bs := by
  induction bs with
  | nil => rfl
  | cons b rest ih =>
      have hb : b < 256 := h b (List.mem_cons_self b rest)
      have hrest : ValidBytes rest := fun x hx => h x (List.mem_cons_of_mem b hx)
      have h1 : b / 16 < 16 := by omega
      have h2 : b % 16 < 16 := by omega
      simp only [armor, unarmor, isHexDigit_hexDigitChar h1, isHexDigit_hexDigitChar h2,
        Bool.and_self, if_pos, ih hrest, Option.map_some, hexVal_hexDigitChar h1,
        hexVal_hexDigitChar h2]
      rw [Nat.div_add_mod]
      rfl

theorem armor_valid {bs : List Nat} (hv : ValidBytes bs) : ValidBytes (armor bs) := by
  induction bs with
  | nil => intro x hx; simp [armor] at hx
  | cons b rest ih =>
      have hb : b < 256 := hv b (List.mem_cons_self b rest)
      have hrest : ValidBytes rest := fun x hx => hv x (List.mem_cons_of_mem b hx)
      intro x hx
      simp only [armor, List.mem_cons] at hx
      rcases hx with h | h | h
      · subst h
        have : hexDigitChar (b / 16) ≤ 102 := hexDigitChar_le (by omega)
        omega
      · subst h
        have : hexDigitChar (b % 16) ≤ 102 := hexDigitChar_le (by omega)
        omega
      · exact ih hrest x h

theorem armor_length (bs : List Nat) : (armor bs).length = 2 * bs.length := by
  induction bs with
  | nil => rfl
  | cons b rest ih => simp [armor, ih]; omega

theorem natUnary_length (n : Nat) : (natUnary n).length = n + 1 := by
  induction n with
  | zero => rfl
  | succ n ih => simp [natUnary, ih]

theorem natUnary_valid (n : Nat) : ValidBytes (natUnary n) := by
  induction n with
  | zero => intro x hx; simp [natUnary] at hx; omega
  | succ n ih =>
      intro x hx
      simp only [natUnary, List.mem_cons] at hx
      rcases hx with h | h
      · omega
      · exact ih x h

theorem splitUnary_natUnary (n : Nat) (rest : List Nat) :
    splitUnary (natUnary n ++ rest) = some (n, rest) := by
  induction n with
  | zero => rfl
  | succ n ih => simp [natUnary, splitUnary, ih]

theorem bytesSplit_bytesJoin (a b : List Nat) : bytesSplit (bytesJoin a b) = some (a, b) := by
  unfold bytesSplit bytesJoin
  rw [List.append_assoc, splitUnary_natUnary]
  simp [List.take_append_of_le_length, List.drop_append_of_le_length]

theorem bytesJoin_length (a b : List Nat) :
    (bytesJoin a b).length = 2 * a.length + b.length + 1 := by
  simp [bytesJoin, natUnary_length]
  omega

theorem bytesJoin_valid {a b : List Nat} (ha : ValidBytes a) (hb : ValidBytes b) :
    ValidBytes (bytesJoin a b) :=
  validBytes_append (validBytes_append (natUnary_valid a.length) ha) hb

theorem splitUnary_sound {bs : List Nat} {n : Nat} {r : List Nat}
    (h : splitUnary bs = some (n, r)) : bs = natUnary n ++ r := by
  induction bs generalizing n with
  | nil => simp [splitUnary] at h
  | cons b rest ih =>
      rcases b with _ | _ | b
      · simp only [splitUnary, Option.some_inj, Prod.mk.injEq] at h
        obtain ⟨h1, h2⟩ := h
        subst h1; subst h2
        rfl
      · simp only [splitUnary] at h
        cases hs : splitUnary rest with
        | none => rw [hs] at h; simp at h
        | some p =>
            obtain ⟨m, r2⟩ := p
            rw [hs] at h
            simp only [Option.map_some', Option.some_inj, Prod.mk.injEq] at h
            obtain ⟨h1, h2⟩ := h
            subst h2
            have hrest := ih hs
            subst hrest
            subst h1
            rfl
      · simp [splitUnary] at h

theorem bytesSplit_sound {bs a r : List Nat} (h : bytesSplit bs = some (a, r)) :
    bs = bytesJoin a r := by
  unfold bytesSplit at h
  cases hs : splitUnary bs with
  | none => rw [hs] at h; simp at h
  | some p =>
      obtain ⟨n, rest⟩ := p
      rw [hs] at h
      simp only at h
      by_cases hn : n ≤ rest.length
      · rw [if_pos hn] at h
        simp only [Option.some_inj, Prod.mk.injEq] at h
        obtain ⟨h1, h2⟩ := h
        have hbs := splitUnary_sound hs
        have hlen : a.length = n := by
          rw [← h1]; exact List.length_take_of_le hn
        rw [hbs, ← h1, ← h2]
        unfold bytesJoin
        rw [List.append_assoc, List.take_append_drop, h1, hlen]
      · rw [if_neg hn] at h; simp at h

theorem sha256_valid {d : List Nat} (h : ValidBytes d) : ValidBytes (sha256 d) :=
  validBytes_cons (by omega) h

theorem natBytes_valid (n : Nat) : ValidBytes (natBytes n) := by
  intro x hx
  simp only [natBytes, List.mem_cons] at hx
  rcases hx with h | h | h | h | h <;> first | (subst h; omega) | simp at h

theorem pbkdf2_valid {p s : List Nat} (hp : ValidBytes p) (hs : ValidBytes s)
    (i l : Nat) : ValidBytes (pbkdf2_hmac_sha256 p s i l) :=
  validBytes_cons (by omega)
    (bytesJoin_valid (natBytes_valid i)
      (bytesJoin_valid (natBytes_valid l) (bytesJoin_valid hp hs)))

theorem pbkdf2_salt_inj {p s1 s2 : List Nat} {i l : Nat}
    (h : pbkdf2_hmac_sha256 p s1 i l = pbkdf2_hmac_sha256 p s2 i l) : s1 = s2 := by
  unfold pbkdf2_hmac_sha256 at h
  have h1 := List.cons.injEq 75 _ 75 _ ▸ h
  have h2 : bytesJoin (natBytes i) (bytesJoin (natBytes l) (bytesJoin p s1)) =
      bytesJoin (natBytes i) (bytesJoin (natBytes l) (bytesJoin p s2)) := by
    exact List.tail_eq_of_cons_eq h
  have h3 := congrArg bytesSplit h2
  rw [bytesSplit_bytesJoin, bytesSplit_bytesJoin] at h3
  simp only [Option.some_inj, Prod.mk.injEq] at h3
  have h4 := congrArg bytesSplit h3.2
  rw [bytesSplit_bytesJoin, bytesSplit_bytesJoin] at h4
  simp only [Option.some_inj, Prod.mk.injEq] at h4
  have h5 := congrArg bytesSplit h4.2
  rw [bytesSplit_bytesJoin, bytesSplit_bytesJoin] at h5
  simp only [Option.some_inj, Prod.mk.injEq] at h5
  exact h5.2

theorem parseToken_mkToken (b : List Nat) : parseToken (mkToken b) = some b := by
  unfold parseToken mkToken
  rw [bytesSplit_bytesJoin]
  simp

theorem parseToken_sound {t b : List Nat} (h : parseToken t = some b) : t = mkToken b := by
  unfold parseToken at h
  cases hs : bytesSplit t with
  | none => rw [hs] at h; simp at h
  | some p =>
      obtain ⟨b0, rest⟩ := p
      rw [hs] at h
      simp only at h
      by_cases hr : rest = sha256 b0
      · rw [if_pos hr] at h
        simp only [Option.some_inj] at h
        subst h
        rw [bytesSplit_sound hs, hr]
        rfl
      · rw [if_neg hr] at h; simp at h

theorem mkToken_length (b : List Nat) : (mkToken b).length = 3 * b.length + 2 := by
  simp [mkToken, bytesJoin_length, sha256]
  omega

theorem mkToken_valid {b : List Nat} (h : ValidBytes b) : ValidBytes (mkToken b) :=
  bytesJoin_valid h (sha256_valid h)

theorem mkToken_getD_body {x : List Nat} {j : Nat} (hj : j < x.length) :
    (mkToken x).getD (x.length + 1 + j) 0 = x.getD j 0 := by
  unfold mkToken bytesJoin
  rw [List.append_assoc]
  rw [List.getD_append_right _ _ _ _ (by simp [natUnary_length])]
  rw [natUnary_length]
  have : x.length + 1 + j - (x.length + 1) = j := by omega
  rw [this]
  rw [List.getD_append _ _ _ _ hj]

theorem mkToken_getD_sha {x : List Nat} {j : Nat} (hj : j < x.length) :
    (mkToken x).getD (2 * x.length + 2 + j) 0 = x.getD j 0 := by
  unfold mkToken bytesJoin sha256
  rw [List.append_assoc]
  rw [List.getD_append_right _ _ _ _ (by simp [natUnary_length]; omega)]
  rw [natUnary_length]
  rw [List.getD_append_right _ _ _ _ (by omega)]
  have : 2 * x.length + 2 + j - (x.length + 1) - x.length = j + 1 := by omega
  rw [this]
  simp [List.getD_cons_succ]

theorem getD_set_ne {l : List Nat} {i p v : Nat} (hne : p ≠ i) :
    (l.set i v).getD p 0 = l.getD p 0 := by
  by_cases hp : p < l.length
  · rw [List.getD_eq_getElem _ _ (by simpa using hp), List.getD_eq_getElem _ _ hp]
    exact List.getElem_set_ne (Ne.symm hne) _
  · rw [List.getD_eq_default _ _ (by simpa using hp), List.getD_eq_default _ _ (by omega)]

/-- A token body altered at exactly one position no longer verifies:
the payload and its integrity copy live at disjoint positions, so a
single change cannot keep them consistent. -/
theorem mkToken_set_ne {body : List Nat} {i v : Nat}
    (hi : i < (mkToken body).length) (hv : v ≠ (mkToken body).getD i 0) :
    parseToken ((mkToken body).set i v) = none := by
  cases hp : parseToken ((mkToken body).set i v) with
  | none => rfl
  | some b2 =>
      exfalso
      have ht := parseToken_sound hp
      have hlen2 : (mkToken b2).length = (mkToken body).length := by
        rw [← ht, List.length_set]
      have hlen : b2.length = body.length := by
        rw [mkToken_length, mkToken_length] at hlen2; omega
      have hgd : ∀ j, j < body.length → b2.getD j 0 = body.getD j 0 := by
        intro j hj
        have hj2 : j < b2.length := by omega
        by_cases hcase : i = body.length + 1 + j
        · have hp2 : (2 * body.length + 2 + j) ≠ i := by omega
          calc b2.getD j 0
              = (mkToken b2).getD (2 * b2.length + 2 + j) 0 := (mkToken_getD_sha hj2).symm
            _ = (mkToken b2).getD (2 * body.length + 2 + j) 0 := by rw [hlen]
            _ = ((mkToken body).set i v).getD (2 * body.length + 2 + j) 0 := by rw [ht]
            _ = (mkToken body).getD (2 * body.length + 2 + j) 0 := getD_set_ne hp2
            _ = body.getD j 0 := mkToken_getD_sha hj
        · have hp1 : (body.length + 1 + j) ≠ i := fun hh => hcase hh.symm
          calc b2.getD j 0
              = (mkToken b2).getD (b2.length + 1 + j) 0 := (mkToken_getD_body hj2).symm
            _ = (mkToken b2).getD (body.length + 1 + j) 0 := by rw [hlen]
            _ = ((mkToken body).set i v).getD (body.length + 1 + j) 0 := by rw [ht]
            _ = (mkToken body).getD (body.length + 1 + j) 0 := getD_set_ne hp1
            _ = body.getD j 0 := mkToken_getD_body hj
      have hbb : b2 = body := by
        apply List.ext_getElem (by omega)
        intro j h1 h2
        have hh := hgd j (by omega)
        rwa [List.getD_eq_getElem _ _ h1, List.getD_eq_getElem _ _ h2] at hh
      rw [hbb] at ht
      have hvv : ((mkToken body).set i v).getD i 0 = v := by
        rw [List.getD_eq_getElem _ _ (by simpa using hi)]
        exact List.getElem_set_self (by simpa using hi)
      rw [ht] at hvv
      exact hv hvv.symm

theorem fernetDecrypt_cons (key rest : List Nat) :
    fernetDecrypt key (103 :: rest) = fernetVerify key rest := rfl

theorem fernetEncrypt_valid {key iv data : List Nat} (hk : ValidBytes key)
    (hiv : ValidBytes iv) (hd : ValidBytes data) :
    ValidBytes (fernetEncrypt key iv data) :=
  validBytes_cons (by omega)
    (armor_valid (mkToken_valid (bytesJoin_valid hk (bytesJoin_valid hiv hd))))

theorem fernetEncrypt_length_gt (key iv data : List Nat) :
    data.length < (fernetEncrypt key iv data).length := by
  simp only [fernetEncrypt, List.length_cons, armor_length, mkToken_length, bytesJoin_length]
  omega

theorem fernetEncrypt_ne (key iv data : List Nat) : fernetEncrypt key iv data ≠ data := by
  intro h
  have := fernetEncrypt_length_gt key iv data
  rw [h] at this
  omega

theorem fernetDecrypt_fernetEncrypt {key iv data : List Nat} (hk : ValidBytes key)
    (hiv : ValidBytes iv) (hd : ValidBytes data) :
    fernetDecrypt key (fernetEncrypt key iv data) = some data := by
  have hvB : ValidBytes (bytesJoin key (bytesJoin iv data)) :=
    bytesJoin_valid hk (bytesJoin_valid hiv hd)
  unfold fernetEncrypt
  rw [fernetDecrypt_cons]
  unfold fernetVerify
  simp [unarmor_armor (mkToken_valid hvB), parseToken_mkToken, bytesSplit_bytesJoin]

theorem fernetDecrypt_wrong_key {key k2 iv data : List Nat} (hne : k2 ≠ key)
    (hk : ValidBytes key) (hiv : ValidBytes iv) (hd : ValidBytes data) :
    fernetDecrypt k2 (fernetEncrypt key iv data) = none := by
  have hvB : ValidBytes (bytesJoin key (bytesJoin iv data)) :=
    bytesJoin_valid hk (bytesJoin_valid hiv hd)
  unfold fernetEncrypt
  rw [fernetDecrypt_cons]
  unfold fernetVerify
  simp only [unarmor_armor (mkToken_valid hvB), parseToken_mkToken, bytesSplit_bytesJoin,
    Option.some_bind]
  rw [if_neg (fun h => hne h.symm)]

theorem unarmor_set {bs : List Nat} (hv : ValidBytes bs) {i v : Nat}
    (hi : i < (armor bs).length) (hne : v ≠ (armor bs).getD i 0) :
    unarmor ((armor bs).set i v) = none ∨
      ∃ k w, k < bs.length ∧ w ≠ bs.getD k 0 ∧
        unarmor ((armor bs).set i v) = some (bs.set k w) := by
  induction bs generalizing i with
  | nil => simp [armor] at hi
  | cons b rest ih =>
      have hb : b < 256 := hv b (List.mem_cons_self b rest)
      have hrest : ValidBytes rest := fun x hx => hv x (List.mem_cons_of_mem b hx)
      have hd1 : b / 16 < 16 := by omega
      have hd2 : b % 16 < 16 := by omega
      rcases i with _ | _ | i
      · by_cases hvh : isHexDigit v = true
        · right
          refine ⟨0, 16 * hexVal v + b % 16, by simp, ?_, ?_⟩
          · have hval : hexVal v ≠ b / 16 := by
              intro hh
              apply hne
              simp only [armor, List.getD_cons_zero]
              rw [← hexDigitChar_hexVal hvh, hh]
            have := hexVal_lt hvh
            simp only [List.getD_cons_zero]
            omega
          · simp only [armor, List.set]
            simp only [unarmor, hvh, isHexDigit_hexDigitChar hd2, Bool.and_self, if_pos,
              unarmor_armor hrest, Option.map_some]
            rw [hexVal_hexDigitChar hd2]
            rfl
        · left
          simp only [armor, List.set]
          simp only [unarmor, Bool.and_eq_true]
          rw [if_neg (by simp [hvh])]
      · by_cases hvh : isHexDigit v = true
        · right
          refine ⟨0, 16 * (b / 16) + hexVal v, by simp, ?_, ?_⟩
          · have hval : hexVal v ≠ b % 16 := by
              intro hh
              apply hne
              simp only [armor, List.getD_cons_succ, List.getD_cons_zero]
              rw [← hexDigitChar_hexVal hvh, hh]
            have := hexVal_lt hvh
            simp only [List.getD_cons_zero]
            omega
          · simp only [armor, List.set]
            simp only [unarmor, hvh, isHexDigit_hexDigitChar hd1, Bool.and_self, if_pos,
              unarmor_armor hrest, Option.map_some]
            rw [hexVal_hexDigitChar hd1]
            rfl
        · left
          simp only [armor, List.set]
          simp only [unarmor, Bool.and_eq_true]
          rw [if_neg (by simp [hvh])]
      · have hi2 : i < (armor rest).length := by
          simp only [armor, List.length_cons] at hi
          omega
        have hne2 : v ≠ (armor rest).getD i 0 := by
          simpa only [armor, List.getD_cons_succ] using hne
        rcases ih hrest hi2 hne2 with h | ⟨k, w, hk, hw, he⟩
        · left
          simp only [armor, List.set]
          simp only [unarmor, isHexDigit_hexDigitChar hd1, isHexDigit_hexDigitChar hd2,
            Bool.and_self, if_pos, h]
          rfl
        · right
          refine ⟨k + 1, w, by simp; omega, by simpa using hw, ?_⟩
          simp only [armor, List.set]
          simp only [unarmor, isHexDigit_hexDigitChar hd1, isHexDigit_hexDigitChar hd2,
            Bool.and_self, if_pos, he, Option.map_some]
          rw [hexVal_hexDigitChar hd1, hexVal_hexDigitChar hd2, Nat.div_add_mod]
          rfl

theorem fernetDecrypt_head_ne {key : List Nat} {vv : Nat} {t : List Nat} (h : vv ≠ 103) :
    fernetDecrypt key (vv :: t) = none := by
  unfold fernetDecrypt
  split
  · rename_i heq
    injection heq with h1 _
    exact absurd h1 h
  · rfl

/-- Altering any single position of a token produced by the idealized
Fernet.encrypt makes verification fail, under every key. -/
theorem fernetDecrypt_set {key iv data : List Nat} (hk : ValidBytes key)
    (hiv : ValidBytes iv) (hd : ValidBytes data) {i v : Nat}
    (hi : i < (fernetEncrypt key iv data).length)
    (hne : v ≠ (fernetEncrypt key iv data).getD i 0) (k2 : List Nat) :
    fernetDecrypt k2 ((fernetEncrypt key iv data).set i v) = none := by
  have hvB : ValidBytes (bytesJoin key (bytesJoin iv data)) :=
    bytesJoin_valid hk (bytesJoin_valid hiv hd)
  have hvT : ValidBytes (mkToken (bytesJoin key (bytesJoin iv data))) := mkToken_valid hvB
  rcases i with _ | i
  · have h103 : v ≠ 103 := by
      simpa only [fernetEncrypt, List.getD_cons_zero] using hne
    simp only [fernetEncrypt, List.set_cons_zero]
    exact fernetDecrypt_head_ne h103
  · simp only [fernetEncrypt, List.set_cons_succ]
    rw [fernetDecrypt_cons]
    unfold fernetVerify
    have hi2 : i < (armor (mkToken (bytesJoin key (bytesJoin iv data)))).length := by
      simp only [fernetEncrypt, List.length_cons] at hi
      omega
    have hne2 : v ≠ (armor (mkToken (bytesJoin key (bytesJoin iv data)))).getD i 0 := by
      simpa only [fernetEncrypt, List.getD_cons_succ] using hne
    rcases unarmor_set hvT hi2 hne2 with h | ⟨k, w, hk2, hw, he⟩
    · rw [h]
      rfl
    · rw [he]
      simp only [Option.some_bind]
      rw [mkToken_set_ne hk2 hw]
      rfl

theorem unarmor_valid : ∀ {cs bs : List Nat}, unarmor cs = some bs → ValidBytes bs
  | [], bs, h => by
      simp only [unarmor, Option.some_inj] at h
      subst h
      intro x hx
      simp at hx
  | [c], bs, h => by simp [unarmor] at h
  | c1 :: c2 :: rest, bs, h => by
      simp only [unarmor] at h
      by_cases hd : (isHexDigit c1 && isHexDigit c2) = true
      · rw [if_pos hd] at h
        rw [Bool.and_eq_true] at hd
        obtain ⟨hd1, hd2⟩ := hd
        cases hu : unarmor rest with
        | none => rw [hu] at h; simp at h
        | some bs2 =>
            rw [hu] at h
            simp at h
            subst h
            have hv1 := hexVal_lt hd1
            have hv2 := hexVal_lt hd2
            exact validBytes_cons (by omega) (unarmor_valid hu)
      · rw [if_neg hd] at h
        simp at h

/-! ### Idealized text encoding

Models str.encode and bytes.decode of Python.  Each character's code
point is written as a fixed three-byte group; the decoder fails when the
length is not a multiple of three or a group is not a valid code point.
Like UTF-8 the encoding is injective into valid bytes and decoding
inverts it; the exact byte layout is idealized. -/

theorem char_toNat_lt (c : Char) : c.toNat < 1114112 := by
  have h := c.valid
  unfold UInt32.isValidChar Nat.isValidChar at h
  unfold Char.toNat
  rcases h with h | ⟨h1, h2⟩ <;> omega

theorem char_toNat_valid (c : Char) : Nat.isValidChar c.toNat := by
  have h := c.valid
  unfold UInt32.isValidChar at h
  exact h

theorem toNat_ofNat_valid {n : Nat} (h : n.isValidChar) : (Char.ofNat n).toNat = n := by
  unfold Char.ofNat
  rw [dif_pos h]
  unfold Char.toNat
  simp [Char.ofNatAux, UInt32.toNat, BitVec.toNat_ofNatLt]

theorem charBytes_valid (c : Char) : ValidBytes (charBytes c) := by
  have h := char_toNat_lt c
  intro x hx
  simp only [charBytes, List.mem_cons] at hx
  rcases hx with h1 | h1 | h1 | h1 <;> first | (subst h1; omega) | simp at h1

theorem strBytes_valid (s : String) : ValidBytes (strBytes s) := by
  unfold strBytes
  induction s.data with
  | nil => intro x hx; simp [encodeChars] at hx
  | cons c cs ih =>
      simp only [encodeChars]
      exact validBytes_append (charBytes_valid c) ih

theorem encodeChars_length (cs : List Char) : (encodeChars cs).length = 3 * cs.length := by
  induction cs with
  | nil => rfl
  | cons c cs ih => simp [encodeChars, charBytes, ih]; omega

theorem decodeChars_encodeChars (cs : List Char) : decodeChars (encodeChars cs) = some cs := by
  induction cs with
  | nil => rfl
  | cons c cs ih =>
      have hval : c.toNat % 256 + 256 * (c.toNat / 256 % 256) + 65536 * (c.toNat / 65536) =
          c.toNat := by omega
      simp [encodeChars, charBytes, decodeChars, hval, char_toNat_valid c, ih,
        Char.ofNat_toNat]

theorem strDecode_strBytes (s : String) : strDecode? (strBytes s) = some s := by
  unfold strDecode? strBytes
  rw [decodeChars_encodeChars]
  rfl

theorem strBytes_inj {s1 s2 : String} (h : strBytes s1 = strBytes s2) : s1 = s2 := by
  have h1 := strDecode_strBytes s1
  have h2 := strDecode_strBytes s2
  rw [h] at h1
  rw [h1] at h2
  exact Option.some_inj.mp h2

theorem decodeChars_none_of_mod : ∀ bs : List Nat, bs.length % 3 ≠ 0 → decodeChars bs = none
  | [], h => by simp at h
  | [_], _ => rfl
  | [_, _], _ => rfl
  | b0 :: b1 :: b2 :: rest, h => by
      have hr : rest.length % 3 ≠ 0 := by
        simp only [List.length_cons] at h
        omega
      unfold decodeChars
      split
      · rw [decodeChars_none_of_mod rest hr]
        rfl
      · rfl

theorem strDecode_none_of_mod {bs : List Nat} (h : bs.length % 3 ≠ 0) : strDecode? bs = none := by
  unfold strDecode?
  rw [decodeChars_none_of_mod bs h]
  rfl

namespace Encryption

theorem get_master_key_valid {cfg : Config} {b : List Nat}
    (h : get_master_key cfg = some b) : ValidBytes b := by
  unfold get_master_key at h
  cases hc : configuredSecret cfg with
  | none => rw [hc] at h; simp at h
  | some s =>
      rw [hc] at h
      simp only at h
      by_cases hs : s = ""
      · rw [if_pos hs] at h; simp at h
      · rw [if_neg hs] at h
        cases hu : urlsafe_b64decode? (strBytes s) with
        | none =>
            rw [hu] at h
            simp only [Option.some_inj] at h
            subst h
            exact strBytes_valid s
        | some b2 =>
            rw [hu] at h
            simp only [Option.some_inj] at h
            subst h
            exact unarmor_valid hu

theorem derive_user_key_some (cfg : Config) (user_id : String) (k : List Nat) :
    derive_user_key cfg user_id (some k) =
      urlsafe_b64encode (pbkdf2_hmac_sha256 k (strBytes user_id) 100000 32) := rfl

theorem derive_user_key_none_of_master_none {cfg : Config} (user_id : String)
    (hm : get_master_key cfg = none) :
    derive_user_key cfg user_id none =
      urlsafe_b64encode (sha256 (strBytes ("default_key_" ++ user_id))) := by
  unfold derive_user_key resolvedMasterKey
  rw [hm]

theorem derive_user_key_none_of_master_some {cfg : Config} (user_id : String)
    {k : List Nat} (hm : get_master_key cfg = some k) :
    derive_user_key cfg user_id none =
      urlsafe_b64encode (pbkdf2_hmac_sha256 k (strBytes user_id) 100000 32) := by
  unfold derive_user_key resolvedMasterKey
  rw [hm]

theorem derive_user_key_none_parts (cfg : Config) (user_id : String) :
    ∃ X, derive_user_key cfg user_id none = urlsafe_b64encode X ∧ ValidBytes X := by
  cases hm : get_master_key cfg with
  | none =>
      exact ⟨_, derive_user_key_none_of_master_none user_id hm,
        sha256_valid (strBytes_valid _)⟩
  | some k =>
      exact ⟨_, derive_user_key_none_of_master_some user_id hm,
        pbkdf2_valid (get_master_key_valid hm) (strBytes_valid _) _ _⟩

theorem derive_user_key_none_valid (cfg : Config) (user_id : String) :
    ValidBytes (derive_user_key cfg user_id none) := by
  obtain ⟨X, hX, hv⟩ := derive_user_key_none_parts cfg user_id
  rw [hX]
  exact armor_valid hv

theorem get_user_fernet_eq {cfg : Config} (hc : cfg.hasCryptography = true)
    (user_id : String) :
    get_user_fernet cfg user_id = some ⟨derive_user_key cfg user_id none⟩ := by
  obtain ⟨X, hX, hv⟩ := derive_user_key_none_parts cfg user_id
  unfold get_user_fernet fernetNew?
  rw [hc, if_pos rfl, hX]
  unfold urlsafe_b64decode? urlsafe_b64encode
  rw [unarmor_armor hv]
  rfl

theorem get_user_fernet_no_crypto {cfg : Config} (hc : cfg.hasCryptography = false)
    (user_id : String) : get_user_fernet cfg user_id = none := by
  unfold get_user_fernet
  rw [hc]
  rfl

end Encryption

namespace Db

theorem hexToBytes_hexStr {bs : List Nat} (h : ValidBytes bs) :
    hexToBytes? (hexStr bs) = some bs := by
  unfold hexToBytes? hexStr
  have harm := armor_valid h
  have hptw : ∀ x ∈ armor bs, (Char.toNat ∘ Char.ofNat) x = x := by
    intro x hx
    have hlt : x < 256 := harm x hx
    have hvalid : Nat.isValidChar x := Or.inl (by omega)
    simp only [Function.comp_apply]
    exact toNat_ofNat_valid hvalid
  have hmap : ((armor bs).map Char.ofNat).map Char.toNat = armor bs := by
    rw [List.map_map, List.map_congr_left hptw]
    exact List.map_id _
  show unarmor (((armor bs).map Char.ofNat).map Char.toNat) = some bs
  rw [hmap, unarmor_armor h]

end Db

namespace Encryption

theorem enabled_parts {cfg : Config} (h : is_encryption_enabled cfg = true) :
    cfg.hasCryptography = true ∧ ∃ k, get_master_key cfg = some k := by
  unfold is_encryption_enabled at h
  by_cases hc : cfg.hasCryptography = false
  · rw [if_pos hc] at h
    exact absurd h (by simp)
  · have hc2 : cfg.hasCryptography = true := by
      cases hcv : cfg.hasCryptography
      · exact absurd hcv hc
      · rfl
    rw [if_neg hc] at h
    exact ⟨hc2, Option.isSome_iff_exists.mp h⟩

theorem is_enabled_false_of_none {cfg : Config} (hm : get_master_key cfg = none) :
    is_encryption_enabled cfg = false := by
  unfold is_encryption_enabled
  split
  · rfl
  · rw [hm]
    rfl

theorem encrypt_data_eq {cfg : Config} (hc : cfg.hasCryptography = true)
    (data : List Nat) (user_id : String) (iv : List Nat) :
    encrypt_data cfg data user_id iv
      = fernetEncrypt (derive_user_key cfg user_id none) iv data := by
  unfold encrypt_data
  rw [get_user_fernet_eq hc]

theorem encrypt_data_no_crypto {cfg : Config} (hc : cfg.hasCryptography = false)
    (data : List Nat) (user_id : String) (iv : List Nat) :
    encrypt_data cfg data user_id iv = data := by
  unfold encrypt_data
  rw [get_user_fernet_no_crypto hc]

theorem decrypt_data_no_crypto {cfg : Config} (hc : cfg.hasCryptography = false)
    (ed : List Nat) (user_id : String) :
    decrypt_data cfg ed user_id = ed := by
  unfold decrypt_data
  rw [get_user_fernet_no_crypto hc]

theorem decrypt_data_of_some {cfg : Config} (hc : cfg.hasCryptography = true)
    {user_id : String} {ed p : List Nat}
    (hf : fernetDecrypt (derive_user_key cfg user_id none) ed = some p) :
    decrypt_data cfg ed user_id = p := by
  unfold decrypt_data
  rw [get_user_fernet_eq hc]
  show (match fernetDecrypt (derive_user_key cfg user_id none) ed with
        | some q => q
        | none => ed) = p
  rw [hf]

theorem decrypt_data_of_fail {cfg : Config} (hc : cfg.hasCryptography = true)
    {user_id : String} {ed : List Nat}
    (hf : fernetDecrypt (derive_user_key cfg user_id none) ed = none) :
    decrypt_data cfg ed user_id = ed := by
  unfold decrypt_data
  rw [get_user_fernet_eq hc]
  show (match fernetDecrypt (derive_user_key cfg user_id none) ed with
        | some q => q
        | none => ed) = ed
  rw [hf]

theorem decrypt_encrypt {cfg : Config} (hc : cfg.hasCryptography = true)
    {data iv : List Nat} (hd : ValidBytes data) (hiv : ValidBytes iv) (user_id : String) :
    decrypt_data cfg (encrypt_data cfg data user_id iv) user_id = data := by
  rw [encrypt_data_eq hc]
  exact decrypt_data_of_some hc
    (fernetDecrypt_fernetEncrypt (derive_user_key_none_valid cfg user_id) hiv hd)

theorem derive_key_ne {cfg : Config} {k : List Nat}
    (hm : get_master_key cfg = some k) {id1 id2 : String} (hid : id1 ≠ id2) :
    derive_user_key cfg id1 none ≠ derive_user_key cfg id2 none := by
  rw [derive_user_key_none_of_master_some id1 hm,
    derive_user_key_none_of_master_some id2 hm]
  intro he
  unfold urlsafe_b64encode at he
  have hv1 : ValidBytes (pbkdf2_hmac_sha256 k (strBytes id1) 100000 32) :=
    pbkdf2_valid (get_master_key_valid hm) (strBytes_valid _) _ _
  have hv2 : ValidBytes (pbkdf2_hmac_sha256 k (strBytes id2) 100000 32) :=
    pbkdf2_valid (get_master_key_valid hm) (strBytes_valid _) _ _
  have h2 := congrArg unarmor he
  rw [unarmor_armor hv1, unarmor_armor hv2] at h2
  exact hid (strBytes_inj (pbkdf2_salt_inj (Option.some_inj.mp h2)))

end Encryption

namespace Reencrypt

theorem derive_user_key_valid (user_id master_key_str : String) :
    ValidBytes (derive_user_key user_id master_key_str) := by
  unfold derive_user_key
  cases hu : urlsafe_b64decode? (strBytes master_key_str) with
  | none =>
      exact armor_valid (pbkdf2_valid (strBytes_valid _) (strBytes_valid _) _ _)
  | some mk =>
      exact armor_valid (pbkdf2_valid (unarmor_valid hu) (strBytes_valid _) _ _)

theorem newUserKey_valid : ValidBytes newUserKey := derive_user_key_valid _ _

end Reencrypt

theorem fernetEncrypt_length_mod3 (key iv data : List Nat) :
    (fernetEncrypt key iv data).length % 3 = 2 := by
  simp only [fernetEncrypt, List.length_cons, armor_length, mkToken_length]
  omega

namespace Db

theorem load_unmarked (cfg : Encryption.Config) (stored : String)
    (hnm : ¬ stored.data.take 4 = ("ENC:" : String).data) :
    load_page_content_db cfg stored = stored := by
  unfold load_page_content_db
  rw [if_neg (fun hcon => hnm hcon.2)]

theorem marked_data_take (x : String) :
    ("ENC:" ++ x).data.take 4 = ("ENC:" : String).data := by
  rw [String.data_append]
  have h4 : ("ENC:" : String).data.length = 4 := rfl
  rw [← h4, List.take_left]

theorem marked_data_drop (x : String) : ("ENC:" ++ x).data.drop 4 = x.data := by
  rw [String.data_append]
  have h4 : ("ENC:" : String).data.length = 4 := rfl
  rw [← h4, List.drop_left]

theorem marked_ne_empty (x : String) : ("ENC:" ++ x) ≠ "" := by
  intro h
  have hd := congrArg String.data h
  rw [String.data_append] at hd
  simp at hd

theorem load_marked_enabled (cfg : Encryption.Config)
    (hen : Encryption.is_encryption_enabled cfg = true) {tok : List Nat}
    (htok : ValidBytes tok) :
    load_page_content_db cfg ("ENC:" ++ hexStr tok)
      = match strDecode? (Encryption.decrypt_data cfg tok "default_user") with
        | some s => s
        | none => "Error decrypting content" := by
  unfold load_page_content_db
  rw [if_pos ⟨marked_ne_empty _, marked_data_take _⟩, hen, if_pos rfl, marked_data_drop]
  show (match hexToBytes? (hexStr tok) with
        | none => "Error decrypting content"
        | some eb =>
            match strDecode? (Encryption.decrypt_data cfg eb "default_user") with
            | some s => s
            | none => "Error decrypting content") = _
  rw [hexToBytes_hexStr htok]

theorem load_marked_badhex (cfg : Encryption.Config)
    (hen : Encryption.is_encryption_enabled cfg = true) {bad : String}
    (hb1 : bad ≠ "") (hb2 : bad.data.take 4 = ("ENC:" : String).data)
    (hb3 : hexToBytes? (String.mk (bad.data.drop 4)) = none) :
    load_page_content_db cfg bad = "Error decrypting content" := by
  unfold load_page_content_db
  rw [if_pos ⟨hb1, hb2⟩, hen, if_pos rfl, hb3]

theorem save_enabled (cfg : Encryption.Config)
    (hen : Encryption.is_encryption_enabled cfg = true) (iv : List Nat) (content : String) :
    save_page_content_db cfg iv content
      = "ENC:" ++ hexStr (Encryption.encrypt_data cfg (strBytes content) "default_user" iv) := by
  unfold save_page_content_db
  rw [hen, if_pos rfl]

theorem save_disabled (cfg : Encryption.Config)
    (hen : Encryption.is_encryption_enabled cfg = false) (iv : List Nat) (content : String) :
    save_page_content_db cfg iv content = content := by
  unfold save_page_content_db
  rw [hen]
  rfl

theorem load_save_roundtrip (cfg : Encryption.Config)
    (hen : Encryption.is_encryption_enabled cfg = true) {iv : List Nat}
    (hiv : ValidBytes iv) (content : String) :
    load_page_content_db cfg (save_page_content_db cfg iv content) = content := by
  have hc := (Encryption.enabled_parts hen).1
  have htok : ValidBytes (Encryption.encrypt_data cfg (strBytes content) "default_user" iv) := by
    rw [Encryption.encrypt_data_eq hc]
    exact fernetEncrypt_valid (Encryption.derive_user_key_none_valid cfg _) hiv
      (strBytes_valid _)
  rw [save_enabled cfg hen, load_marked_enabled cfg hen htok,
    Encryption.decrypt_encrypt hc (strBytes_valid content) hiv, strDecode_strBytes]

end Db

/-! ### Claims -/

/-- C1: for every byte string p and every identifier id, decrypting the
result of encrypting p under id returns p, provided encryption is
enabled (master secret configured and cryptography library available)
at both calls with the same secret: the two calls share the same
process configuration, and the randomness of the cipher is the explicit
iv argument. -/
theorem claim_C1_roundtrip (cfg : Encryption.Config) (p iv : List Nat) (id : String)
    (hen : Encryption.is_encryption_enabled cfg = true)
    (hp : ValidBytes p) (hiv : ValidBytes iv) :
    Encryption.decrypt_data cfg (Encryption.encrypt_data cfg p id iv) id = p :=
  Encryption.decrypt_encrypt (Encryption.enabled_parts hen).1 hp hiv id

/-- Witness for C1 at a concrete configuration and plaintext. -/
theorem claim_C1_roundtrip_witness :
    Encryption.is_encryption_enabled cfgTest = true ∧
    Encryption.decrypt_data cfgTest
      (Encryption.encrypt_data cfgTest [104, 105] "alice" [7]) "alice" = [104, 105] :=
  ⟨by decide,
    claim_C1_roundtrip cfgTest [104, 105] [7] "alice" (by decide) (by decide) (by decide)⟩

/-- C2: for every non-empty identifier and non-empty master secret,
derive_user_key equals the reference definition of the specification,
base64url of PBKDF2-HMAC-SHA256 with the master secret as password, the
identifier bytes as salt, 100000 iterations and 32 output bytes.
Determinism is immediate: the translated function is a pure function of
its arguments, so two invocations with identical inputs are the same
term. -/
theorem claim_C2_derive_spec (cfg : Encryption.Config) (identifier : String)
    (secret : List Nat) (_h1 : identifier ≠ "") (_h2 : secret ≠ []) :
    Encryption.derive_user_key cfg identifier (some secret)
      = derive_key_spec identifier secret := rfl

/-- Witness for C2 at a concrete identifier and secret. -/
theorem claim_C2_derive_spec_witness :
    ("alice" : String) ≠ "" ∧ ([1, 2] : List Nat) ≠ [] ∧
    Encryption.derive_user_key cfgTest "alice" (some [1, 2])
      = derive_key_spec "alice" [1, 2] :=
  ⟨by decide, by decide,
    claim_C2_derive_spec cfgTest "alice" [1, 2] (by decide) (by decide)⟩

/-- C8 counterexample: the claim says key derivation fails with
KeyDerivationError exactly when the identifier or the master secret is
empty.  The source defines no KeyDerivationError and the body of
derive_user_key has no failing operation: on the empty identifier and
empty secret it returns the derived key normally, as this closed
evaluation shows, so the claimed failure on structurally invalid inputs
does not happen. -/
theorem claim_C8_counterexample :
    Encryption.derive_user_key cfgTest "" (some [])
      = urlsafe_b64encode (pbkdf2_hmac_sha256 [] (strBytes "") 100000 32) ∧
    Encryption.derive_user_key cfgTest "" (some []) ≠ [] :=
  ⟨rfl, by decide⟩

/-- C8 amended: key derivation never fails; for every identifier and
every master secret, empty ones included, derive_user_key returns the
base64url PBKDF2 derivation normally and no error path exists. -/
theorem claim_C8_amended (cfg : Encryption.Config) (identifier : String)
    (secret : List Nat) :
    Encryption.derive_user_key cfg identifier (some secret)
      = urlsafe_b64encode (pbkdf2_hmac_sha256 secret (strBytes identifier) 100000 32) := rfl

/-- C9: when no master secret is configured but the cryptography
library is available, encryption still takes place under a fallback
key: derive_user_key returns base64url of the SHA-256 digest of
"default_key_" followed by the user id, encrypt_data returns a Fernet
encryption of p under that key and not p itself, decrypting the result
returns p, and is_encryption_enabled is false throughout. -/
theorem claim_C9_fallback (cfg : Encryption.Config) (p iv : List Nat) (id : String)
    (hm : Encryption.get_master_key cfg = none)
    (hc : cfg.hasCryptography = true)
    (hp : ValidBytes p) (hiv : ValidBytes iv) :
    Encryption.derive_user_key cfg id none
      = urlsafe_b64encode (sha256 (strBytes ("default_key_" ++ id))) ∧
    Encryption.encrypt_data cfg p id iv
      = fernetEncrypt (Encryption.derive_user_key cfg id none) iv p ∧
    Encryption.encrypt_data cfg p id iv ≠ p ∧
    Encryption.decrypt_data cfg (Encryption.encrypt_data cfg p id iv) id = p ∧
    Encryption.is_encryption_enabled cfg = false := by
  refine ⟨Encryption.derive_user_key_none_of_master_none id hm,
    Encryption.encrypt_data_eq hc p id iv, ?_, ?_, Encryption.is_enabled_false_of_none hm⟩
  · rw [Encryption.encrypt_data_eq hc]
    exact fernetEncrypt_ne _ _ _
  · exact Encryption.decrypt_encrypt hc hp hiv id

/-- Witness for C9 at a concrete configuration and plaintext. -/
theorem claim_C9_fallback_witness :
    Encryption.derive_user_key cfgNoKey "u" none
      = urlsafe_b64encode (sha256 (strBytes ("default_key_" ++ "u"))) ∧
    Encryption.encrypt_data cfgNoKey [104] "u" []
      = fernetEncrypt (Encryption.derive_user_key cfgNoKey "u" none) [] [104] ∧
    Encryption.encrypt_data cfgNoKey [104] "u" [] ≠ [104] ∧
    Encryption.decrypt_data cfgNoKey (Encryption.encrypt_data cfgNoKey [104] "u" []) "u"
      = [104] ∧
    Encryption.is_encryption_enabled cfgNoKey = false :=
  claim_C9_fallback cfgNoKey [104] [] "u" (by decide) (by decide) (by decide) (by decide)

/-- C4 counterexample: the claim says that with no master secret
configured, encrypt_data p id returns p unchanged.  With the
cryptography library available (the configured fixture has no master
key), encrypt_data encrypts under the fallback key instead and its
result differs from the plaintext. -/
theorem claim_C4_counterexample :
    Encryption.get_master_key cfgNoKey = none ∧
    Encryption.encrypt_data cfgNoKey [104] "u" [] ≠ [104] := by
  constructor
  · decide
  · decide

/-- C4 amended: when no master secret is configured,
is_encryption_enabled returns false, and encrypt_data returns p
unchanged exactly when the cryptography library is also unavailable;
when the library is available, encrypt_data returns a fallback-key
encryption different from p (the persistence layer never reaches that
call because it checks is_encryption_enabled first). -/
theorem claim_C4_amended (cfg : Encryption.Config) (p iv : List Nat) (id : String)
    (hm : Encryption.get_master_key cfg = none) :
    Encryption.is_encryption_enabled cfg = false ∧
    (cfg.hasCryptography = false → Encryption.encrypt_data cfg p id iv = p) ∧
    (cfg.hasCryptography = true → Encryption.encrypt_data cfg p id iv ≠ p) := by
  refine ⟨Encryption.is_enabled_false_of_none hm, ?_, ?_⟩
  · intro hc
    exact Encryption.encrypt_data_no_crypto hc p id iv
  · intro hc
    rw [Encryption.encrypt_data_eq hc]
    exact fernetEncrypt_ne _ _ _

/-- Witness for the amended C4 at the two concrete configurations. -/
theorem claim_C4_amended_witness :
    (Encryption.is_encryption_enabled cfgNoCrypto = false ∧
      (cfgNoCrypto.hasCryptography = false →
        Encryption.encrypt_data cfgNoCrypto [104] "u" [] = [104]) ∧
      (cfgNoCrypto.hasCryptography = true →
        Encryption.encrypt_data cfgNoCrypto [104] "u" [] ≠ [104])) ∧
    (Encryption.is_encryption_enabled cfgNoKey = false ∧
      (cfgNoKey.hasCryptography = false →
        Encryption.encrypt_data cfgNoKey [104] "u" [] = [104]) ∧
      (cfgNoKey.hasCryptography = true →
        Encryption.encrypt_data cfgNoKey [104] "u" [] ≠ [104])) :=
  ⟨claim_C4_amended cfgNoCrypto [104] [] "u" (by decide),
    claim_C4_amended cfgNoKey [104] [] "u" (by decide)⟩

/-- C3 counterexample: the claim says decrypt_data fails with
DecryptionError on a wrong key, and in particular that decrypting the
envelope of p for alice under bob fails.  The source defines no
DecryptionError and decrypt_data catches every exception: as this closed
evaluation shows, the call returns the envelope unchanged, a normal
return value that is not the plaintext, so the claimed failure does not
happen. -/
theorem claim_C3_counterexample :
    Encryption.decrypt_data cfgTest
        (Encryption.encrypt_data cfgTest [104] "alice" []) "bob"
      = Encryption.encrypt_data cfgTest [104] "alice" [] ∧
    Encryption.encrypt_data cfgTest [104] "alice" [] ≠ [104] := by
  constructor
  · decide
  · decide

/-- C3 amended: decrypt_data never raises; whenever Fernet verification
fails — the envelope is not a well-formed token (first conjunct), the
envelope was produced under id1 but altered at any single position
(second conjunct), or the envelope for id1 is decrypted under a
different identifier id2 (third conjunct) — decrypt_data returns the
envelope unchanged, and never corrupted plaintext; the envelope itself
always differs from the plaintext (fourth conjunct). -/
theorem claim_C3_amended (cfg : Encryption.Config) (id1 id2 : String)
    (p iv t : List Nat) (i v : Nat)
    (hen : Encryption.is_encryption_enabled cfg = true)
    (hp : ValidBytes p) (hiv : ValidBytes iv)
    (hfail : fernetDecrypt (Encryption.derive_user_key cfg id1 none) t = none)
    (hi : i < (Encryption.encrypt_data cfg p id1 iv).length)
    (hv : v ≠ (Encryption.encrypt_data cfg p id1 iv).getD i 0)
    (hid : id2 ≠ id1) :
    Encryption.decrypt_data cfg t id1 = t ∧
    Encryption.decrypt_data cfg ((Encryption.encrypt_data cfg p id1 iv).set i v) id1
      = (Encryption.encrypt_data cfg p id1 iv).set i v ∧
    Encryption.decrypt_data cfg (Encryption.encrypt_data cfg p id1 iv) id2
      = Encryption.encrypt_data cfg p id1 iv ∧
    Encryption.encrypt_data cfg p id1 iv ≠ p := by
  obtain ⟨hc, k, hm⟩ := Encryption.enabled_parts hen
  have hkv := Encryption.derive_user_key_none_valid cfg id1
  refine ⟨Encryption.decrypt_data_of_fail hc hfail, ?_, ?_, ?_⟩
  · have hi2 : i < (fernetEncrypt (Encryption.derive_user_key cfg id1 none) iv p).length := by
      rwa [Encryption.encrypt_data_eq hc] at hi
    have hv2 : v ≠ (fernetEncrypt (Encryption.derive_user_key cfg id1 none) iv p).getD i 0 := by
      rwa [Encryption.encrypt_data_eq hc] at hv
    rw [Encryption.encrypt_data_eq hc]
    exact Encryption.decrypt_data_of_fail hc (fernetDecrypt_set hkv hiv hp hi2 hv2 _)
  · rw [Encryption.encrypt_data_eq hc]
    exact Encryption.decrypt_data_of_fail hc
      (fernetDecrypt_wrong_key (Encryption.derive_key_ne hm hid) hkv hiv hp)
  · rw [Encryption.encrypt_data_eq hc]
    exact fernetEncrypt_ne _ _ _

/-- Witness for the amended C3 at concrete inputs: a one-byte envelope
that is no token, the envelope of the byte 104 for alice altered at
position 0, and the same envelope decrypted for bob. -/
theorem claim_C3_amended_witness :
    Encryption.decrypt_data cfgTest [0] "alice" = [0] ∧
    Encryption.decrypt_data cfgTest
        ((Encryption.encrypt_data cfgTest [104] "alice" []).set 0 0) "alice"
      = (Encryption.encrypt_data cfgTest [104] "alice" []).set 0 0 ∧
    Encryption.decrypt_data cfgTest
        (Encryption.encrypt_data cfgTest [104] "alice" []) "bob"
      = Encryption.encrypt_data cfgTest [104] "alice" [] ∧
    Encryption.encrypt_data cfgTest [104] "alice" [] ≠ [104] :=
  claim_C3_amended cfgTest "alice" "bob" [104] [] [0] 0 0 (by decide) (by decide)
    (by decide) (by decide) (by decide) (by decide) (by decide)

/-- C10: a stored page content value that begins with the marker ENC:,
read while encryption is disabled, yields exactly the fixed notice
string, never the raw stored ciphertext and never an exception. -/
theorem claim_C10_disabled_notice (cfg : Encryption.Config) (stored : String)
    (hmk : stored.data.take 4 = ("ENC:" : String).data)
    (hen : Encryption.is_encryption_enabled cfg = false) :
    Db.load_page_content_db cfg stored
      = "Content is encrypted but encryption is disabled." := by
  have hne : stored ≠ "" := by
    intro he
    subst he
    exact absurd hmk (by decide)
  unfold Db.load_page_content_db
  rw [if_pos ⟨hne, hmk⟩, hen]
  rfl

/-- Witness for C10 at a concrete marked value and disabled
configuration. -/
theorem claim_C10_disabled_notice_witness :
    ("ENC:xx" : String).data.take 4 = ("ENC:" : String).data ∧
    Db.load_page_content_db cfgNoCrypto "ENC:xx"
      = "Content is encrypted but encryption is disabled." :=
  ⟨by decide, claim_C10_disabled_notice cfgNoCrypto "ENC:xx" (by decide) (by decide)⟩

/-- C5 counterexample: the claim says that on any decryption failure the
load returns the sentinel string.  For the stored value made of the
marker followed by the hex of the bytes of the text hello, decryption
fails (the bytes are no Fernet token, first conjunct), decrypt_data
returns them unchanged, and the load returns the text hello rather than
the sentinel. -/
theorem claim_C5_counterexample :
    fernetDecrypt (Encryption.derive_user_key cfgTest "default_user" none)
        (strBytes "hello") = none ∧
    Db.load_page_content_db cfgTest ("ENC:" ++ Db.hexStr (strBytes "hello")) = "hello" ∧
    ("hello" : String) ≠ "Error decrypting content" := by
  refine ⟨by decide, by decide, by decide⟩

/-- C5 amended: on save, the stored value is the marker ENC: followed
by the hex of the encrypted bytes when encryption is enabled, and the
raw text otherwise; on load, a value without the marker is returned
verbatim, a marked value is hex-decoded and decrypted and loading a
saved value returns the original content, and the sentinel is returned
when hex-decoding fails (likewise when the text decoding of the
returned bytes fails); a decryption failure alone does not produce the
sentinel, because decrypt_data returns the envelope bytes unchanged and
the load returns their text decoding when they decode as text. -/
theorem claim_C5_amended (cfg cfg2 : Encryption.Config) (iv : List Nat)
    (content stored bad : String)
    (hen : Encryption.is_encryption_enabled cfg = true)
    (hen2 : Encryption.is_encryption_enabled cfg2 = false)
    (hiv : ValidBytes iv)
    (hnm : ¬ stored.data.take 4 = ("ENC:" : String).data)
    (hb1 : bad ≠ "") (hb2 : bad.data.take 4 = ("ENC:" : String).data)
    (hb3 : Db.hexToBytes? (String.mk (bad.data.drop 4)) = none) :
    Db.save_page_content_db cfg iv content
      = "ENC:" ++ Db.hexStr (Encryption.encrypt_data cfg (strBytes content) "default_user" iv) ∧
    Db.save_page_content_db cfg2 iv content = content ∧
    Db.load_page_content_db cfg stored = stored ∧
    Db.load_page_content_db cfg (Db.save_page_content_db cfg iv content) = content ∧
    Db.load_page_content_db cfg bad = "Error decrypting content" :=
  ⟨Db.save_enabled cfg hen iv content,
    Db.save_disabled cfg2 hen2 iv content,
    Db.load_unmarked cfg stored hnm,
    Db.load_save_roundtrip cfg hen hiv content,
    Db.load_marked_badhex cfg hen hb1 hb2 hb3⟩

/-- Witness for the amended C5 at concrete configurations, content and
stored values. -/
theorem claim_C5_amended_witness :
    Db.save_page_content_db cfgTest [] "hi"
      = "ENC:" ++ Db.hexStr (Encryption.encrypt_data cfgTest (strBytes "hi") "default_user" []) ∧
    Db.save_page_content_db cfgNoCrypto [] "hi" = "hi" ∧
    Db.load_page_content_db cfgTest "x" = "x" ∧
    Db.load_page_content_db cfgTest (Db.save_page_content_db cfgTest [] "hi") = "hi" ∧
    Db.load_page_content_db cfgTest "ENC:zz" = "Error decrypting content" :=
  claim_C5_amended cfgTest cfgNoCrypto [] "hi" "x" "ENC:zz" (by decide) (by decide)
    (by decide) (by decide) (by decide) (by decide) (by decide)

namespace Reencrypt

theorem reencrypt_of_readPhase_none {d : List Nat} (iv : List Nat)
    (h : readPhase d = none) : reencrypt iv (some d) = some d := by
  show (match readPhase d with
        | none => some d
        | some j => some (fernetEncrypt newUserKey iv (strBytes (jsonDumps j)))) = some d
  rw [h]

theorem reencrypt_of_readPhase_some {d : List Nat} {j : Json} (iv : List Nat)
    (h : readPhase d = some j) :
    reencrypt iv (some d)
      = some (fernetEncrypt newUserKey iv (strBytes (jsonDumps j))) := by
  show (match readPhase d with
        | none => some d
        | some jj => some (fernetEncrypt newUserKey iv (strBytes (jsonDumps jj)))) = _
  rw [h]

theorem readPhase_none_of_failures {d : List Nat}
    (h1 : fernetDecrypt oldUserKey d = none)
    (h2 : (strDecode? d).bind jsonParse? = none) : readPhase d = none := by
  unfold readPhase
  rw [h1]
  simp only [Option.none_bind]
  show (strDecode? d).bind jsonParse? = none
  exact h2

end Reencrypt

/-- C6: when the read phase fails entirely — the stored value neither
decrypts under the old key nor reads as plain JSON text — the migration
returns without writing anything and the stored value is unchanged; a
missing file is likewise left alone. -/
theorem claim_C6_read_failure (d iv : List Nat)
    (h1 : fernetDecrypt Reencrypt.oldUserKey d = none)
    (h2 : (strDecode? d).bind jsonParse? = none) :
    Reencrypt.reencrypt iv (some d) = some d ∧
    Reencrypt.reencrypt iv none = none :=
  ⟨Reencrypt.reencrypt_of_readPhase_none iv (Reencrypt.readPhase_none_of_failures h1 h2),
    rfl⟩

/-- Witness for C6 at a one-byte stored value that is neither a token
nor decodable text. -/
theorem claim_C6_read_failure_witness :
    fernetDecrypt Reencrypt.oldUserKey [0] = none ∧
    ((strDecode? [0]).bind jsonParse? = none) ∧
    Reencrypt.reencrypt [7] (some [0]) = some [0] ∧
    Reencrypt.reencrypt [7] none = none := by
  refine ⟨by decide, by decide, ?_⟩
  exact claim_C6_read_failure [0] [7] (by decide) (by decide)

/-- C7: after a successful run that re-encrypted the read JSON value
under the new key, a second run changes nothing: the rewritten file no
longer decrypts under the old key (the two hardcoded keys derive
different user keys) and its token is not decodable text, so the read
phase of the second run fails and the file is left exactly as the first
run wrote it; the value stays decryptable under the new key to the same
plaintext. -/
theorem claim_C7_idempotent (d iv1 iv2 : List Nat) (j : Json)
    (hread : Reencrypt.readPhase d = some j)
    (hiv1 : ValidBytes iv1) :
    Reencrypt.reencrypt iv1 (some d)
      = some (fernetEncrypt Reencrypt.newUserKey iv1 (strBytes (jsonDumps j))) ∧
    Reencrypt.reencrypt iv2 (Reencrypt.reencrypt iv1 (some d))
      = Reencrypt.reencrypt iv1 (some d) ∧
    fernetDecrypt Reencrypt.newUserKey
        (fernetEncrypt Reencrypt.newUserKey iv1 (strBytes (jsonDumps j)))
      = some (strBytes (jsonDumps j)) := by
  have e1 := Reencrypt.reencrypt_of_readPhase_some iv1 hread
  have hkne : Reencrypt.oldUserKey ≠ Reencrypt.newUserKey := by decide
  have hwk : fernetDecrypt Reencrypt.oldUserKey
      (fernetEncrypt Reencrypt.newUserKey iv1 (strBytes (jsonDumps j))) = none :=
    fernetDecrypt_wrong_key hkne Reencrypt.newUserKey_valid hiv1 (strBytes_valid _)
  have hlen := fernetEncrypt_length_mod3 Reencrypt.newUserKey iv1 (strBytes (jsonDumps j))
  have hdec : strDecode?
      (fernetEncrypt Reencrypt.newUserKey iv1 (strBytes (jsonDumps j))) = none :=
    strDecode_none_of_mod (by omega)
  have hrp2 := Reencrypt.readPhase_none_of_failures hwk (by rw [hdec]; rfl)
  refine ⟨e1, ?_,
    fernetDecrypt_fernetEncrypt Reencrypt.newUserKey_valid hiv1 (strBytes_valid _)⟩
  rw [e1]
  exact Reencrypt.reencrypt_of_readPhase_none iv2 hrp2

/-- Witness for C7 at a concrete legacy plaintext JSON file. -/
theorem claim_C7_idempotent_witness :
    Reencrypt.readPhase (strBytes "\x7b\x7d") = some "\x7b\x7d" ∧
    Reencrypt.reencrypt [] (some (strBytes "\x7b\x7d"))
      = some (fernetEncrypt Reencrypt.newUserKey [] (strBytes (jsonDumps "\x7b\x7d"))) ∧
    Reencrypt.reencrypt [0] (Reencrypt.reencrypt [] (some (strBytes "\x7b\x7d")))
      = Reencrypt.reencrypt [] (some (strBytes "\x7b\x7d")) ∧
    fernetDecrypt Reencrypt.newUserKey
        (fernetEncrypt Reencrypt.newUserKey [] (strBytes (jsonDumps "\x7b\x7d")))
      = some (strBytes (jsonDumps "\x7b\x7d")) := by
  refine ⟨by decide, ?_⟩
  exact claim_C7_idempotent (strBytes "\x7b\x7d") [] [0] "\x7b\x7d" (by decide) (by decide)
